import Mathlib

/-!
# TriList: a three-type container with per-type lazy modifiers

Shallow embedding of `src/tri_list.h`.

* `std::variant<T1, T2, T3>` is the inductive type `variant`; the three
  (distinct) element types are addressed by an index `Alt`, which stands for
  the template argument `T` of `push_back<T>`, `modify_only<T>`, `reset<T>`
  and `range_over<T>`.
* `std::function<T(T)>` is `std_function T`: either empty (`none`) or a
  callable target.  Invoking an empty `std::function` throws
  `std::bad_function_call`; results of calls are therefore `Except Error`.
* The container is a record of the two public members `list` and `modifiers`.
* An iterator is a record of a position in the vector (`ptr`) and its own
  copy of the three modifiers.  Reading through an iterator takes the
  storage the pointer points into as an explicit argument.
-/

namespace TriList

/-- Failures a read can end in: the two standard exceptions that the library
calls in the source can throw, and a dereference outside the storage
(undefined behaviour in the source, made observable here). -/
inductive Error where
  | bad_function_call
  | bad_variant_access
  | out_of_bounds
  deriving DecidableEq, Repr

/-- The type `std::variant<T1, T2, T3>` (line 22). -/
inductive variant (T1 T2 T3 : Type) where
  | v1 (x : T1)
  | v2 (x : T2)
  | v3 (x : T3)
  deriving DecidableEq, Repr

/-- Which of the three element types a template argument `T` denotes. -/
inductive Alt where
  | a1
  | a2
  | a3
  deriving DecidableEq, Repr

/-- The element type denoted by an alternative. -/
@[reducible] def elem_type (T1 T2 T3 : Type) : Alt → Type
  | .a1 => T1
  | .a2 => T2
  | .a3 => T3

/-- The result of calling a callable object of signature `T(T)`. -/
abbrev callable (T : Type) := T → Except Error T

/-- The type `std::function<T(T)>`: empty, or holding a callable target. -/
abbrev std_function (T : Type) := Option (callable T)

/-- Calling a `std::function`: an empty one throws `std::bad_function_call`. -/
def invoke {T : Type} (f : std_function T) : callable T :=
  fun x =>
    match f with
    | none => .error .bad_function_call
    | some g => g x

/-- Modelled from the spec: the concept `modifier<T>` of `tri_list_concepts.h`,
which is not among the sources, constrains the argument of `modify_only<T>`.
The spec calls a modifier "a pure function from a type to itself"; such a
total pure function is seen here as a callable that never throws. -/
def lift {T : Type} (f : T → T) : callable T :=
  fun x => .ok (f x)

/-- The lambda `identity<T>` (lines 10-11): `[](T x){return x;}`. -/
def identity (T : Type) : callable T :=
  fun x => .ok x

/-- The function `compose(f, g)` (lines 13-16): `[=](T x){return f(g(x));}`;
`g` runs first, and an exception thrown by it propagates. -/
def compose {T : Type} (f g : callable T) : callable T :=
  fun x =>
    match g x with
    | .error e => .error e
    | .ok y => f y

/-- The tuple of the three `std::function` slots (line 23). -/
abbrev registry (T1 T2 T3 : Type) :=
  std_function T1 × std_function T2 × std_function T3

/-- The call `std::get<std::function<T(T)>>(modifiers)`, read access. -/
def get_function {T1 T2 T3 : Type} (a : Alt) (m : registry T1 T2 T3) :
    std_function (elem_type T1 T2 T3 a) :=
  match a with
  | .a1 => m.1
  | .a2 => m.2.1
  | .a3 => m.2.2

/-- Assignment to `std::get<std::function<T(T)>>(modifiers)`. -/
def set_function {T1 T2 T3 : Type} (a : Alt) (m : registry T1 T2 T3)
    (f : std_function (elem_type T1 T2 T3 a)) : registry T1 T2 T3 :=
  match a, f with
  | .a1, f => (f, m.2.1, m.2.2)
  | .a2, f => (m.1, f, m.2.2)
  | .a3, f => (m.1, m.2.1, f)

/-- Construction of a variant from a value of element type `T`. -/
def inject {T1 T2 T3 : Type} (a : Alt) (x : elem_type T1 T2 T3 a) : variant T1 T2 T3 :=
  match a, x with
  | .a1, x => .v1 x
  | .a2, x => .v2 x
  | .a3, x => .v3 x

/-- The alternative a variant currently holds (`variant::index`). -/
def variant.index {T1 T2 T3 : Type} : variant T1 T2 T3 → Alt
  | .v1 _ => .a1
  | .v2 _ => .a2
  | .v3 _ => .a3

/-- The call `std::holds_alternative<T>(x)`. -/
def holds_alternative {T1 T2 T3 : Type} (a : Alt) (x : variant T1 T2 T3) : Bool :=
  match a, x with
  | .a1, .v1 _ => true
  | .a2, .v2 _ => true
  | .a3, .v3 _ => true
  | _, _ => false

/-- The call `std::get<T>(x)`: throws `std::bad_variant_access` on another alternative. -/
def get {T1 T2 T3 : Type} (a : Alt) (x : variant T1 T2 T3) :
    Except Error (elem_type T1 T2 T3 a) :=
  match a, x with
  | .a1, .v1 y => .ok y
  | .a2, .v2 y => .ok y
  | .a3, .v3 y => .ok y
  | _, _ => .error .bad_variant_access

/-- The class `tri_list<T1, T2, T3>`: its two data members (lines 22-23). -/
structure tri_list (T1 T2 T3 : Type) where
  list : List (variant T1 T2 T3)
  modifiers : registry T1 T2 T3

/-- The class `tri_list::iterator`: its two data members (lines 82-83).  The
pointer is kept as an offset from the start of the vector. -/
structure iterator (T1 T2 T3 : Type) where
  ptr : Int
  modifiers : registry T1 T2 T3

/-- The visitor of `operator*` (lines 37-48): the modifier of the active type
is called on the payload and the result converted back to a variant. -/
def visit {T1 T2 T3 : Type} (m : registry T1 T2 T3) :
    variant T1 T2 T3 → Except Error (variant T1 T2 T3)
  | .v1 x => (invoke m.1 x).map .v1
  | .v2 x => (invoke m.2.1 x).map .v2
  | .v3 x => (invoke m.2.2 x).map .v3

/-- Reading the element a pointer designates (`*ptr`) in the given storage. -/
def load {T1 T2 T3 : Type} (store : List (variant T1 T2 T3)) (p : Int) :
    Except Error (variant T1 T2 T3) :=
  match p with
  | Int.ofNat n =>
    match store[n]? with
    | some v => .ok v
    | none => .error .out_of_bounds
  | Int.negSucc _ => .error .out_of_bounds

/-- The member `iterator::operator*` (lines 36-49). -/
def iterator.deref {T1 T2 T3 : Type} (it : iterator T1 T2 T3)
    (store : List (variant T1 T2 T3)) : Except Error (variant T1 T2 T3) :=
  match load store it.ptr with
  | .error e => .error e
  | .ok v => visit it.modifiers v

/-- Prefix `operator++` (lines 51-54): the iterator after the step, which is
also the value returned. -/
def iterator.pre_increment {T1 T2 T3 : Type} (it : iterator T1 T2 T3) : iterator T1 T2 T3 :=
  ⟨it.ptr + 1, it.modifiers⟩

/-- Postfix `operator++` (lines 56-60): the returned copy and the iterator after the step. -/
def iterator.post_increment {T1 T2 T3 : Type} (it : iterator T1 T2 T3) :
    iterator T1 T2 T3 × iterator T1 T2 T3 :=
  (it, ⟨it.ptr + 1, it.modifiers⟩)

/-- Prefix `operator--` (lines 62-65). -/
def iterator.pre_decrement {T1 T2 T3 : Type} (it : iterator T1 T2 T3) : iterator T1 T2 T3 :=
  ⟨it.ptr - 1, it.modifiers⟩

/-- Postfix `operator--` (lines 67-71): the returned copy and the iterator after the step. -/
def iterator.post_decrement {T1 T2 T3 : Type} (it : iterator T1 T2 T3) :
    iterator T1 T2 T3 × iterator T1 T2 T3 :=
  (it, ⟨it.ptr - 1, it.modifiers⟩)

/-- The friend `operator==` (lines 73-75): pointers only. -/
def iterator.eq {T1 T2 T3 : Type} (that other : iterator T1 T2 T3) : Bool :=
  decide (that.ptr = other.ptr)

/-- The friend `operator!=` (lines 77-79). -/
def iterator.ne {T1 T2 T3 : Type} (that other : iterator T1 T2 T3) : Bool :=
  decide (that.ptr ≠ other.ptr)

/-- The defaulted constructor `tri_list()` (line 88): both members are
default-initialised, so the vector is empty and each `std::function` is empty. -/
def tri_list.default_ctor (T1 T2 T3 : Type) : tri_list T1 T2 T3 :=
  ⟨[], (none, none, none)⟩

/-- The constructor from an initializer list (line 90). -/
def tri_list.ctor {T1 T2 T3 : Type} (l : List (variant T1 T2 T3)) : tri_list T1 T2 T3 :=
  ⟨l, (some (identity T1), some (identity T2), some (identity T3))⟩

/-- The member `push_back<T>` (lines 92-94). -/
def tri_list.push_back {T1 T2 T3 : Type} (c : tri_list T1 T2 T3) (a : Alt)
    (t : elem_type T1 T2 T3 a) : tri_list T1 T2 T3 :=
  ⟨c.list ++ [inject a t], c.modifiers⟩

/-- The member `modify_only<T>` (lines 96-99): the slot of `T` is copied and
then overwritten by `compose<T>(m, modifier)`. -/
def tri_list.modify_only {T1 T2 T3 : Type} (c : tri_list T1 T2 T3) (a : Alt)
    (m : elem_type T1 T2 T3 a → elem_type T1 T2 T3 a) : tri_list T1 T2 T3 :=
  let modifier := get_function a c.modifiers
  ⟨c.list, set_function a c.modifiers (some (compose (lift m) (invoke modifier)))⟩

/-- The member `reset<T>` (lines 101-103). -/
def tri_list.reset {T1 T2 T3 : Type} (c : tri_list T1 T2 T3) (a : Alt) : tri_list T1 T2 T3 :=
  ⟨c.list, set_function a c.modifiers (some (identity (elem_type T1 T2 T3 a)))⟩

/-- The view returned by `range_over<T>` (lines 105-111): it refers to the
container's vector and owns a copy of the slot of `T`; the two lambdas are
stateless. -/
structure range_view (T1 T2 T3 : Type) (a : Alt) where
  modifier : std_function (elem_type T1 T2 T3 a)

/-- The member `range_over<T>` (lines 105-111). -/
def tri_list.range_over {T1 T2 T3 : Type} (c : tri_list T1 T2 T3) (a : Alt) :
    range_view T1 T2 T3 a :=
  ⟨get_function a c.modifiers⟩

/-- The member `begin` (lines 113-115). -/
def tri_list.begin {T1 T2 T3 : Type} (c : tri_list T1 T2 T3) : iterator T1 T2 T3 :=
  ⟨0, c.modifiers⟩

/-- The member `end` (lines 117-119). -/
def tri_list.end_ {T1 T2 T3 : Type} (c : tri_list T1 T2 T3) : iterator T1 T2 T3 :=
  ⟨(c.list.length : Int), c.modifiers⟩

/-- Running a loop body over the elements of a list, collecting what it
yields, and stopping at the first exception. -/
def collect {α β : Type} (f : α → Except Error β) : List α → Except Error (List β)
  | [] => .ok []
  | x :: xs =>
    match f x with
    | .error e => .error e
    | .ok y =>
      match collect f xs with
      | .error e => .error e
      | .ok ys => .ok (y :: ys)

/-- Traversing a `range_over<T>` view from start to finish over the vector it
refers to: the pipeline `filter(holds_alternative<T>) | transform(get<T>) |
transform(modifier)` of lines 106-109, element by element. -/
def range_view.traverse {T1 T2 T3 : Type} {a : Alt} (v : range_view T1 T2 T3 a)
    (store : List (variant T1 T2 T3)) : Except Error (List (elem_type T1 T2 T3 a)) :=
  collect
    (fun x =>
      match get a x with
      | .error e => .error e
      | .ok y => invoke v.modifier y)
    (store.filter (holds_alternative a))

/-- The loop `for (it = first; it != last; ++it) out.push_back(*it)` over the
given storage; `none` when the fuel runs out before `last` is reached. -/
def iterate_from {T1 T2 T3 : Type} (store : List (variant T1 T2 T3))
    (last : iterator T1 T2 T3) :
    Nat → iterator T1 T2 T3 → Option (Except Error (List (variant T1 T2 T3)))
  | 0, _ => none
  | fuel + 1, it =>
    if iterator.ne it last then
      match it.deref store with
      | .error e => some (.error e)
      | .ok v =>
        match iterate_from store last fuel it.pre_increment with
        | none => none
        | some (.error e) => some (.error e)
        | some (.ok vs) => some (.ok (v :: vs))
    else some (.ok [])

/-- Whole-sequence iteration from `begin()` until `end()` is reached. -/
def tri_list.iterate {T1 T2 T3 : Type} (c : tri_list T1 T2 T3) :
    Option (Except Error (List (variant T1 T2 T3))) :=
  iterate_from c.list c.end_ (c.list.length + 1) c.begin

/-- Reading all values of one type through a freshly made `range_over<T>` view. -/
def tri_list.read_range {T1 T2 T3 : Type} (c : tri_list T1 T2 T3) (a : Alt) :
    Except Error (List (elem_type T1 T2 T3 a)) :=
  (c.range_over a).traverse c.list

/-- An iterator moved forward `n` times with prefix `operator++`. -/
def iterator.advance {T1 T2 T3 : Type} (it : iterator T1 T2 T3) : Nat → iterator T1 T2 T3
  | 0 => it
  | n + 1 => (it.advance n).pre_increment

/-- Dereferencing `begin()` moved to position `i`, in the container's own storage. -/
def tri_list.read_at {T1 T2 T3 : Type} (c : tri_list T1 T2 T3) (i : Nat) :
    Except Error (variant T1 T2 T3) :=
  (c.begin.advance i).deref c.list

/-- The payload of a variant when it holds the given alternative. -/
def payload {T1 T2 T3 : Type} (a : Alt) (x : variant T1 T2 T3) :
    Option (elem_type T1 T2 T3 a) :=
  match a, x with
  | .a1, .v1 y => some y
  | .a2, .v2 y => some y
  | .a3, .v3 y => some y
  | _, _ => none

/-- A call that changes a container. -/
inductive op (T1 T2 T3 : Type) where
  | push_back (a : Alt) (t : elem_type T1 T2 T3 a)
  | modify_only (a : Alt) (m : elem_type T1 T2 T3 a → elem_type T1 T2 T3 a)
  | reset (a : Alt)

/-- The container after one call. -/
def tri_list.step {T1 T2 T3 : Type} (c : tri_list T1 T2 T3) : op T1 T2 T3 → tri_list T1 T2 T3
  | .push_back a t => c.push_back a t
  | .modify_only a m => c.modify_only a m
  | .reset a => c.reset a

/-- The container after a sequence of calls, first call first. -/
def tri_list.run {T1 T2 T3 : Type} (c : tri_list T1 T2 T3) (ops : List (op T1 T2 T3)) :
    tri_list T1 T2 T3 :=
  ops.foldl tri_list.step c

/-- A call that is `modify_only` or `reset`. -/
def op.is_modifier_call {T1 T2 T3 : Type} : op T1 T2 T3 → Bool
  | .push_back _ _ => false
  | .modify_only _ _ => true
  | .reset _ => true

/-- A call that is `push_back`. -/
def op.is_push_back {T1 T2 T3 : Type} : op T1 T2 T3 → Bool
  | .push_back _ _ => true
  | .modify_only _ _ => false
  | .reset _ => false

/-- The element a `push_back` call appends, if the call is one. -/
def op.pushed {T1 T2 T3 : Type} : op T1 T2 T3 → Option (variant T1 T2 T3)
  | .push_back a t => some (inject a t)
  | .modify_only _ _ => none
  | .reset _ => none

/-- An iterator moved backward `n` times with prefix `operator--`. -/
def iterator.retreat {T1 T2 T3 : Type} (it : iterator T1 T2 T3) : Nat → iterator T1 T2 T3
  | 0 => it
  | n + 1 => (it.retreat n).pre_decrement

/-- A variant whose payload went through the total function of its own type. -/
def modified {T1 T2 T3 : Type} (f1 : T1 → T1) (f2 : T2 → T2) (f3 : T3 → T3) :
    variant T1 T2 T3 → variant T1 T2 T3
  | .v1 x => .v1 (f1 x)
  | .v2 x => .v2 (f2 x)
  | .v3 x => .v3 (f3 x)

/-- Every slot of the registry holds a callable that never throws. -/
def total {T1 T2 T3 : Type} (m : registry T1 T2 T3) : Prop :=
  ∃ (f1 : T1 → T1) (f2 : T2 → T2) (f3 : T3 → T3),
    m = (some (lift f1), some (lift f2), some (lift f3))

/-- An iterator moved forward `n` times with postfix `operator++`: each step
keeps the iterator the call leaves behind and drops the returned copy. -/
def iterator.advance_post {T1 T2 T3 : Type} (it : iterator T1 T2 T3) : Nat → iterator T1 T2 T3
  | 0 => it
  | n + 1 => (it.advance_post n).post_increment.2

/-- An iterator moved backward `n` times with postfix `operator--`. -/
def iterator.retreat_post {T1 T2 T3 : Type} (it : iterator T1 T2 T3) : Nat → iterator T1 T2 T3
  | 0 => it
  | n + 1 => (it.retreat_post n).post_decrement.2

/-- The calls `modify_only<T>(f1)`, ..., `modify_only<T>(fn)` in that order. -/
def tri_list.modify_all {T1 T2 T3 : Type} (c : tri_list T1 T2 T3) (a : Alt)
    (fs : List (elem_type T1 T2 T3 a → elem_type T1 T2 T3 a)) : tri_list T1 T2 T3 :=
  fs.foldl (fun d f => d.modify_only a f) c

/-- The value `fn (... (f2 (f1 x)) ...)`: the first function of the list is applied first. -/
def pipeline {T : Type} (fs : List (T → T)) (x : T) : T :=
  fs.foldl (fun y f => f y) x

/-- A call that is `reset<T>` for the given `T`. -/
def op.is_reset {T1 T2 T3 : Type} (a : Alt) : op T1 T2 T3 → Bool
  | .push_back _ _ => false
  | .modify_only _ _ => false
  | .reset b => decide (b = a)

/-- Each of the three slots holds a target (no `std::function` is empty). -/
def holds_callables {T1 T2 T3 : Type} (m : registry T1 T2 T3) : Prop :=
  m.1.isSome = true ∧ m.2.1.isSome = true ∧ m.2.2.isSome = true

/-- The number of positions of a `range_over<T>` view over the given storage:
the two `transform` stages keep the positions of the `filter` stage, and
counting them calls no modifier. -/
def range_view.length {T1 T2 T3 : Type} {a : Alt} (_v : range_view T1 T2 T3 a)
    (store : List (variant T1 T2 T3)) : Nat :=
  (store.filter (holds_alternative a)).length

/-- A slot that holds a callable which never throws. -/
def slot_total {T : Type} (s : std_function T) : Prop :=
  ∃ f : T → T, s = some (lift f)

/-- A slot every call of which ends in `std::bad_function_call`. -/
def slot_throws {T : Type} (s : std_function T) : Prop :=
  ∀ x, invoke s x = .error .bad_function_call

/-! ## Auxiliary lemmas -/

theorem get_set_same {T1 T2 T3 : Type} (a : Alt) (m : registry T1 T2 T3)
    (f : std_function (elem_type T1 T2 T3 a)) :
    get_function a (set_function a m f) = f := by
  cases a <;> rfl

theorem get_set_other {T1 T2 T3 : Type} (a b : Alt) (h : b ≠ a) (m : registry T1 T2 T3)
    (f : std_function (elem_type T1 T2 T3 a)) :
    get_function b (set_function a m f) = get_function b m := by
  cases a <;> cases b <;> first | rfl | exact absurd rfl h

theorem invoke_some {T : Type} (g : callable T) (x : T) : invoke (some g) x = g x := rfl

theorem invoke_none {T : Type} (x : T) :
    invoke (none : std_function T) x = .error .bad_function_call := rfl

theorem compose_lift {T : Type} (f : T → T) (g : callable T) (x y : T) (h : g x = .ok y) :
    compose (lift f) g x = .ok (f y) := by
  simp [compose, lift, h]

theorem compose_lift_lift {T : Type} (f g : T → T) :
    compose (lift f) (lift g) = lift (fun x => f (g x)) := by
  funext x
  simp [compose, lift]

theorem invoke_identity {T : Type} : invoke (some (identity T)) = lift (fun x => x) := by
  funext x
  rfl

theorem collect_lift {α β : Type} (f : α → β) (l : List α) :
    collect (fun x => .ok (f x)) l = .ok (l.map f) := by
  induction l with
  | nil => rfl
  | cons x xs ih => simp [collect, ih]

theorem advance_ptr {T1 T2 T3 : Type} (it : iterator T1 T2 T3) (n : Nat) :
    it.advance n = ⟨it.ptr + (n : Int), it.modifiers⟩ := by
  induction n with
  | zero => simp [iterator.advance]
  | succ k ih =>
    simp only [iterator.advance, ih, iterator.pre_increment]
    congr 1
    push_cast
    ring

theorem load_natCast {T1 T2 T3 : Type} (store : List (variant T1 T2 T3)) (n : Nat) :
    load store (n : Int) =
      match store[n]? with
      | some v => .ok v
      | none => .error .out_of_bounds := rfl

theorem read_at_eq {T1 T2 T3 : Type} (c : tri_list T1 T2 T3) (i : Nat) :
    c.read_at i =
      match c.list[i]? with
      | some v => visit c.modifiers v
      | none => .error .out_of_bounds := by
  simp only [tri_list.read_at, advance_ptr, tri_list.begin, iterator.deref, zero_add,
    load_natCast]
  cases c.list[i]? <;> rfl

theorem iterate_from_eq {T1 T2 T3 : Type} (store : List (variant T1 T2 T3))
    (m m' : registry T1 T2 T3) :
    ∀ (fuel n : Nat), n ≤ store.length → store.length - n < fuel →
      iterate_from store ⟨(store.length : Int), m'⟩ fuel ⟨(n : Int), m⟩
        = some (collect (visit m) (store.drop n)) := by
  intro fuel
  induction fuel with
  | zero => intro n _ h; omega
  | succ k ih =>
    intro n hn hk
    rcases Nat.lt_or_ge n store.length with hlt | hge
    · have hne : ((n : Int) ≠ (store.length : Int)) := by omega
      have hget : store[n]? = some store[n] := List.getElem?_eq_getElem hlt
      have hdrop : store.drop n = store[n] :: store.drop (n + 1) :=
        List.drop_eq_getElem_cons hlt
      have hinc : (iterator.mk (n : Int) m).pre_increment = ⟨((n + 1 : Nat) : Int), m⟩ := by
        simp [iterator.pre_increment]
      have ih' := ih (n + 1) (by omega) (by omega)
      simp only [iterate_from, iterator.ne, hne, decide_True, if_true, iterator.deref,
        load_natCast, hget, hinc, ih', hdrop, collect, ne_eq, not_false_eq_true]
      cases visit m store[n] with
      | error e => rfl
      | ok v =>
        cases collect (visit m) (List.drop (n + 1) store) <;> rfl
    · have heq : n = store.length := by omega
      subst heq
      simp [iterate_from, iterator.ne, collect]

theorem iterate_eq {T1 T2 T3 : Type} (c : tri_list T1 T2 T3) :
    c.iterate = some (collect (visit c.modifiers) c.list) := by
  have h := iterate_from_eq c.list c.modifiers c.modifiers (c.list.length + 1) 0
    (Nat.zero_le _) (by omega)
  simpa [tri_list.iterate, tri_list.begin, tri_list.end_] using h

theorem collect_filter_filterMap {α β γ : Type} (F : α → Except Error γ)
    (G : β → Except Error γ) (p : α → Bool) (q : α → Option β)
    (hyes : ∀ x, p x = true → ∃ y, q x = some y ∧ F x = G y)
    (hno : ∀ x, p x = false → q x = none) (l : List α) :
    collect F (l.filter p) = collect G (l.filterMap q) := by
  induction l with
  | nil => rfl
  | cons x xs ih =>
    cases hp : p x with
    | true =>
      obtain ⟨y, hq, hF⟩ := hyes x hp
      simp [List.filter_cons, List.filterMap_cons, hp, hq, collect, hF, ih]
    | false =>
      simp [List.filter_cons, List.filterMap_cons, hp, hno x hp, ih]

theorem traverse_eq {T1 T2 T3 : Type} {a : Alt} (v : range_view T1 T2 T3 a)
    (store : List (variant T1 T2 T3)) :
    v.traverse store = collect (invoke v.modifier) (store.filterMap (payload a)) := by
  unfold range_view.traverse
  apply collect_filter_filterMap
  · intro x hx
    cases a <;> cases x <;> first
      | exact ⟨_, rfl, rfl⟩
      | exact absurd hx (by simp [holds_alternative])
  · intro x hx
    cases a <;> cases x <;> first
      | rfl
      | exact absurd hx (by simp [holds_alternative])

theorem retreat_ptr {T1 T2 T3 : Type} (it : iterator T1 T2 T3) (n : Nat) :
    it.retreat n = ⟨it.ptr - (n : Int), it.modifiers⟩ := by
  induction n with
  | zero => simp [iterator.retreat]
  | succ k ih =>
    simp only [iterator.retreat, ih, iterator.pre_decrement]
    congr 1
    push_cast
    ring

theorem visit_inject {T1 T2 T3 : Type} (m : registry T1 T2 T3) (a : Alt)
    (x : elem_type T1 T2 T3 a) :
    visit m (inject a x) =
      match invoke (get_function a m) x with
      | .error e => .error e
      | .ok y => .ok (inject a y) := by
  cases a <;> simp only [inject, visit, get_function, Except.map] <;> split <;> simp_all

theorem visit_index {T1 T2 T3 : Type} (m : registry T1 T2 T3) (v w : variant T1 T2 T3)
    (h : visit m v = .ok w) : w.index = v.index := by
  cases v <;> simp only [visit, Except.map] at h <;> split at h <;> simp_all [variant.index]
  all_goals (subst h; rfl)

theorem visit_total {T1 T2 T3 : Type} (f1 : T1 → T1) (f2 : T2 → T2) (f3 : T3 → T3)
    (v : variant T1 T2 T3) :
    visit (some (lift f1), some (lift f2), some (lift f3)) v = .ok (modified f1 f2 f3 v) := by
  cases v <;> rfl

theorem modified_index {T1 T2 T3 : Type} (f1 : T1 → T1) (f2 : T2 → T2) (f3 : T3 → T3)
    (v : variant T1 T2 T3) : (modified f1 f2 f3 v).index = v.index := by
  cases v <;> rfl

theorem modified_id {T1 T2 T3 : Type} (v : variant T1 T2 T3) :
    modified (fun x => x) (fun x => x) (fun x => x) v = v := by
  cases v <;> rfl

theorem collect_ok_length {α β : Type} (F : α → Except Error β) :
    ∀ (l : List α) (vs : List β), collect F l = .ok vs → vs.length = l.length := by
  intro l
  induction l with
  | nil => intro vs h; simp [collect] at h; subst h; rfl
  | cons x xs ih =>
    intro vs h
    simp only [collect] at h
    cases hx : F x with
    | error e => simp [hx] at h
    | ok y =>
      cases hxs : collect F xs with
      | error e => simp [hx, hxs] at h
      | ok ys =>
        simp [hx, hxs] at h
        subst h
        simp [ih ys hxs]

theorem collect_ok_getElem {α β : Type} (F : α → Except Error β) :
    ∀ (l : List α) (vs : List β), collect F l = .ok vs →
      ∀ (i : Nat) (v : α), l[i]? = some v → ∃ w, vs[i]? = some w ∧ F v = .ok w := by
  intro l
  induction l with
  | nil => intro vs _ i v hv; simp at hv
  | cons x xs ih =>
    intro vs h i v hv
    simp only [collect] at h
    cases hx : F x with
    | error e => simp [hx] at h
    | ok y =>
      cases hxs : collect F xs with
      | error e => simp [hx, hxs] at h
      | ok ys =>
        simp [hx, hxs] at h
        subst h
        cases i with
        | zero =>
          simp at hv
          subst hv
          exact ⟨y, by simp, hx⟩
        | succ k =>
          simp at hv
          obtain ⟨w, hw, hF⟩ := ih ys hxs k v hv
          exact ⟨w, by simpa using hw, hF⟩

theorem ctor_total {T1 T2 T3 : Type} (l : List (variant T1 T2 T3)) :
    total (tri_list.ctor l).modifiers :=
  ⟨fun x => x, fun x => x, fun x => x, rfl⟩

theorem step_total {T1 T2 T3 : Type} (c : tri_list T1 T2 T3) (o : op T1 T2 T3)
    (h : total c.modifiers) : total (c.step o).modifiers := by
  obtain ⟨f1, f2, f3, hm⟩ := h
  cases o with
  | push_back a t => exact ⟨f1, f2, f3, hm⟩
  | modify_only a m =>
    cases a
    · exact ⟨fun x => m (f1 x), f2, f3, by
        simp only [tri_list.step, tri_list.modify_only, set_function, get_function, hm]; rfl⟩
    · exact ⟨f1, fun x => m (f2 x), f3, by
        simp only [tri_list.step, tri_list.modify_only, set_function, get_function, hm]; rfl⟩
    · exact ⟨f1, f2, fun x => m (f3 x), by
        simp only [tri_list.step, tri_list.modify_only, set_function, get_function, hm]; rfl⟩
  | reset a =>
    cases a
    · exact ⟨fun x => x, f2, f3, by
        simp only [tri_list.step, tri_list.reset, set_function, hm]; rfl⟩
    · exact ⟨f1, fun x => x, f3, by
        simp only [tri_list.step, tri_list.reset, set_function, hm]; rfl⟩
    · exact ⟨f1, f2, fun x => x, by
        simp only [tri_list.step, tri_list.reset, set_function, hm]; rfl⟩

theorem run_total {T1 T2 T3 : Type} (ops : List (op T1 T2 T3)) :
    ∀ (c : tri_list T1 T2 T3), total c.modifiers → total (c.run ops).modifiers := by
  induction ops with
  | nil => intro c h; exact h
  | cons o os ih => intro c h; exact ih (c.step o) (step_total c o h)

theorem run_list {T1 T2 T3 : Type} (ops : List (op T1 T2 T3)) :
    ∀ (c : tri_list T1 T2 T3), (c.run ops).list = c.list ++ ops.filterMap op.pushed := by
  induction ops with
  | nil => intro c; simp [tri_list.run]
  | cons o os ih =>
    intro c
    have h := ih (c.step o)
    simp only [tri_list.run, List.foldl_cons] at h ⊢
    rw [h]
    cases o <;>
      simp [tri_list.step, tri_list.push_back, tri_list.modify_only, tri_list.reset,
        op.pushed, List.filterMap_cons]

theorem run_list_of_modifier_calls {T1 T2 T3 : Type} (ops : List (op T1 T2 T3)) :
    ∀ (c : tri_list T1 T2 T3), ops.all op.is_modifier_call = true →
      (c.run ops).list = c.list := by
  induction ops with
  | nil => intro c _; rfl
  | cons o os ih =>
    intro c h
    simp only [List.all_cons, Bool.and_eq_true] at h
    have h2 := ih (c.step o) h.2
    simp only [tri_list.run, List.foldl_cons] at h2 ⊢
    rw [h2]
    cases o with
    | push_back a t => simp [op.is_modifier_call] at h
    | modify_only a m => rfl
    | reset a => rfl

theorem iterate_total {T1 T2 T3 : Type} (c : tri_list T1 T2 T3) (f1 : T1 → T1)
    (f2 : T2 → T2) (f3 : T3 → T3)
    (h : c.modifiers = (some (lift f1), some (lift f2), some (lift f3))) :
    c.iterate = some (.ok (c.list.map (modified f1 f2 f3))) := by
  rw [iterate_eq, h]
  have hv : visit (some (lift f1), some (lift f2), some (lift f3))
      = fun v => Except.ok (modified f1 f2 f3 v) := by
    funext v
    exact visit_total f1 f2 f3 v
  rw [hv, collect_lift]

theorem collect_ok_map {α β γ : Type} (F : α → Except Error β) (q : α → γ) (r : β → γ)
    (hF : ∀ v w, F v = .ok w → r w = q v) :
    ∀ (l : List α) (vs : List β), collect F l = .ok vs → vs.map r = l.map q := by
  intro l
  induction l with
  | nil => intro vs h; simp [collect] at h; subst h; rfl
  | cons x xs ih =>
    intro vs h
    simp only [collect] at h
    cases hx : F x with
    | error e => simp [hx] at h
    | ok y =>
      cases hxs : collect F xs with
      | error e => simp [hx, hxs] at h
      | ok ys =>
        simp [hx, hxs] at h
        subst h
        simp [ih ys hxs, hF x y hx]

theorem inject_index {T1 T2 T3 : Type} (a : Alt) (x : elem_type T1 T2 T3 a) :
    (inject a x : variant T1 T2 T3).index = a := by
  cases a <;> rfl

theorem payload_inject {T1 T2 T3 : Type} (a : Alt) (x : elem_type T1 T2 T3 a) :
    payload a (inject a x : variant T1 T2 T3) = some x := by
  cases a <;> rfl

theorem modify_all_list {T1 T2 T3 : Type} (a : Alt)
    (fs : List (elem_type T1 T2 T3 a → elem_type T1 T2 T3 a)) :
    ∀ (c : tri_list T1 T2 T3), (c.modify_all a fs).list = c.list := by
  induction fs with
  | nil => intro c; rfl
  | cons f fs ih =>
    intro c
    have h := ih (c.modify_only a f)
    simpa [tri_list.modify_all] using h

theorem modify_all_slot {T1 T2 T3 : Type} (a : Alt)
    (fs : List (elem_type T1 T2 T3 a → elem_type T1 T2 T3 a)) :
    ∀ (c : tri_list T1 T2 T3) (h : elem_type T1 T2 T3 a → elem_type T1 T2 T3 a),
      get_function a c.modifiers = some (lift h) →
      get_function a (c.modify_all a fs).modifiers
        = some (lift (fun x => pipeline fs (h x))) := by
  induction fs with
  | nil => intro c h hc; exact hc
  | cons f fs ih =>
    intro c h hc
    have hstep : get_function a (c.modify_only a f).modifiers
        = some (lift (fun x => f (h x))) := by
      simp only [tri_list.modify_only, get_set_same, hc]
      congr 1
    exact ih (c.modify_only a f) (fun x => f (h x)) hstep

theorem advance_post_eq {T1 T2 T3 : Type} (it : iterator T1 T2 T3) (n : Nat) :
    it.advance_post n = it.advance n := by
  induction n with
  | zero => rfl
  | succ k ih =>
    simp only [iterator.advance_post, iterator.advance, ih, iterator.post_increment,
      iterator.pre_increment]

theorem retreat_post_eq {T1 T2 T3 : Type} (it : iterator T1 T2 T3) (n : Nat) :
    it.retreat_post n = it.retreat n := by
  induction n with
  | zero => rfl
  | succ k ih =>
    simp only [iterator.retreat_post, iterator.retreat, ih, iterator.post_decrement,
      iterator.pre_decrement]

theorem advance_retreat {T1 T2 T3 : Type} (it : iterator T1 T2 T3) (n : Nat) :
    (it.advance n).retreat n = it := by
  rw [advance_ptr, retreat_ptr]
  cases it with
  | mk p m =>
    simp only [iterator.mk.injEq, and_true]
    ring

theorem step_slot_total {T1 T2 T3 : Type} (c : tri_list T1 T2 T3) (o : op T1 T2 T3) (a : Alt)
    (h : slot_total (get_function a c.modifiers)) :
    slot_total (get_function a (c.step o).modifiers) := by
  obtain ⟨f, hf⟩ := h
  cases o with
  | push_back b t => exact ⟨f, hf⟩
  | modify_only b m =>
    by_cases hb : a = b
    · subst hb
      refine ⟨fun x => m (f x), ?_⟩
      simp only [tri_list.step, tri_list.modify_only, get_set_same, hf]
      congr 1
    · refine ⟨f, ?_⟩
      simp only [tri_list.step, tri_list.modify_only, get_set_other b a hb, hf]
  | reset b =>
    by_cases hb : a = b
    · subst hb
      exact ⟨fun x => x, by simp only [tri_list.step, tri_list.reset, get_set_same]; rfl⟩
    · refine ⟨f, ?_⟩
      simp only [tri_list.step, tri_list.reset, get_set_other b a hb, hf]

theorem step_slot_throws {T1 T2 T3 : Type} (c : tri_list T1 T2 T3) (o : op T1 T2 T3) (a : Alt)
    (h : slot_throws (get_function a c.modifiers)) (ho : o.is_reset a = false) :
    slot_throws (get_function a (c.step o).modifiers) := by
  cases o with
  | push_back b t => exact h
  | modify_only b m =>
    by_cases hb : a = b
    · subst hb
      intro x
      simp only [tri_list.step, tri_list.modify_only, get_set_same, invoke_some, compose, h x]
    · intro x
      simp only [tri_list.step, tri_list.modify_only, get_set_other b a hb]
      exact h x
  | reset b =>
    have hb : a ≠ b := by
      intro hab
      simp [op.is_reset, hab] at ho
    intro x
    simp only [tri_list.step, tri_list.reset, get_set_other b a hb]
    exact h x

theorem step_slot_reset {T1 T2 T3 : Type} (c : tri_list T1 T2 T3) (o : op T1 T2 T3) (a : Alt)
    (ho : o.is_reset a = true) : slot_total (get_function a (c.step o).modifiers) := by
  cases o with
  | push_back b t => simp [op.is_reset] at ho
  | modify_only b m => simp [op.is_reset] at ho
  | reset b =>
    have hb : b = a := by simpa [op.is_reset] using ho
    subst hb
    exact ⟨fun x => x, by simp only [tri_list.step, tri_list.reset, get_set_same]; rfl⟩

theorem run_slot_total {T1 T2 T3 : Type} (a : Alt) (ops : List (op T1 T2 T3)) :
    ∀ (c : tri_list T1 T2 T3), slot_total (get_function a c.modifiers) →
      slot_total (get_function a (c.run ops).modifiers) := by
  induction ops with
  | nil => intro c h; exact h
  | cons o os ih => intro c h; exact ih (c.step o) (step_slot_total c o a h)

theorem run_slot_throws {T1 T2 T3 : Type} (a : Alt) (ops : List (op T1 T2 T3)) :
    ∀ (c : tri_list T1 T2 T3), slot_throws (get_function a c.modifiers) →
      ops.any (op.is_reset a) = false →
      slot_throws (get_function a (c.run ops).modifiers) := by
  induction ops with
  | nil => intro c h _; exact h
  | cons o os ih =>
    intro c h hany
    simp only [List.any_cons, Bool.or_eq_false_iff] at hany
    exact ih (c.step o) (step_slot_throws c o a h hany.1) hany.2

theorem run_slot_reset {T1 T2 T3 : Type} (a : Alt) (ops : List (op T1 T2 T3)) :
    ∀ (c : tri_list T1 T2 T3), ops.any (op.is_reset a) = true →
      slot_total (get_function a (c.run ops).modifiers) := by
  induction ops with
  | nil => intro c h; simp at h
  | cons o os ih =>
    intro c hany
    simp only [List.any_cons, Bool.or_eq_true] at hany
    cases ho : o.is_reset a with
    | true => exact run_slot_total a os (c.step o) (step_slot_reset c o a ho)
    | false =>
      rcases hany with h1 | h2
      · rw [ho] at h1
        exact absurd h1 (by simp)
      · exact ih (c.step o) h2

theorem default_ctor_slot_throws (T1 T2 T3 : Type) (a : Alt) :
    slot_throws (get_function a (tri_list.default_ctor T1 T2 T3).modifiers) := by
  intro x
  cases a <;> rfl

theorem collect_throws {α β : Type} (F : α → Except Error β) (e : Error)
    (hF : ∀ y, F y = .error e) (l : List α) (hl : l ≠ []) : collect F l = .error e := by
  cases l with
  | nil => exact absurd rfl hl
  | cons x xs => simp [collect, hF x]

theorem filterMap_payload_ne_nil {T1 T2 T3 : Type} (a : Alt) (l : List (variant T1 T2 T3))
    (i : Nat) (x : elem_type T1 T2 T3 a) (h : l[i]? = some (inject a x)) :
    l.filterMap (payload a) ≠ [] := by
  have hmem : inject a x ∈ l := List.getElem?_mem h
  have hx : x ∈ l.filterMap (payload a) :=
    List.mem_filterMap.mpr ⟨inject a x, hmem, payload_inject a x⟩
  intro hnil
  rw [hnil] at hx
  exact absurd hx (List.not_mem_nil x)

theorem step_holds_callables {T1 T2 T3 : Type} (c : tri_list T1 T2 T3) (o : op T1 T2 T3)
    (h : holds_callables c.modifiers) : holds_callables (c.step o).modifiers := by
  obtain ⟨h1, h2, h3⟩ := h
  cases o with
  | push_back a t => exact ⟨h1, h2, h3⟩
  | modify_only a m =>
    cases a
    · exact ⟨rfl, h2, h3⟩
    · exact ⟨h1, rfl, h3⟩
    · exact ⟨h1, h2, rfl⟩
  | reset a =>
    cases a
    · exact ⟨rfl, h2, h3⟩
    · exact ⟨h1, rfl, h3⟩
    · exact ⟨h1, h2, rfl⟩

theorem run_holds_callables {T1 T2 T3 : Type} (ops : List (op T1 T2 T3)) :
    ∀ (c : tri_list T1 T2 T3), holds_callables c.modifiers →
      holds_callables (c.run ops).modifiers := by
  induction ops with
  | nil => intro c h; exact h
  | cons o os ih => intro c h; exact ih (c.step o) (step_holds_callables c o h)

theorem payload_eq_some {T1 T2 T3 : Type} (a : Alt) (v : variant T1 T2 T3)
    (y : elem_type T1 T2 T3 a) (h : payload a v = some y) : v = inject a y := by
  cases a <;> cases v <;> simp [payload] at h <;> subst h <;> rfl

theorem payload_eq_none_of_index {T1 T2 T3 : Type} (a : Alt) (v w : variant T1 T2 T3)
    (hidx : w.index = v.index) (h : payload a v = none) : payload a w = none := by
  cases a <;> cases v <;> cases w <;> simp_all [payload, variant.index]

theorem collect_visit_filterMap {T1 T2 T3 : Type} (m : registry T1 T2 T3) (a : Alt) :
    ∀ (l vs : List (variant T1 T2 T3)), collect (visit m) l = .ok vs →
      collect (invoke (get_function a m)) (l.filterMap (payload a))
        = .ok (vs.filterMap (payload a)) := by
  intro l
  induction l with
  | nil =>
    intro vs h
    simp [collect] at h
    subst h
    rfl
  | cons x xs ih =>
    intro vs h
    simp only [collect] at h
    cases hx : visit m x with
    | error e => simp [hx] at h
    | ok w =>
      cases hxs : collect (visit m) xs with
      | error e => simp [hx, hxs] at h
      | ok ws =>
        simp [hx, hxs] at h
        subst h
        have ih' := ih ws hxs
        cases hp : payload a x with
        | none =>
          have hw : payload a w = none :=
            payload_eq_none_of_index a x w (visit_index m x w hx) hp
          simp [List.filterMap_cons, hp, hw, ih']
        | some y =>
          have hxy := payload_eq_some a x y hp
          rw [hxy, visit_inject] at hx
          cases hy : invoke (get_function a m) y with
          | error e => simp [hy] at hx
          | ok z =>
            simp [hy] at hx
            subst hx
            simp [List.filterMap_cons, hp, payload_inject, collect, hy, ih']

theorem filter_lengths_sum {T1 T2 T3 : Type} (l : List (variant T1 T2 T3)) :
    (l.filter (holds_alternative Alt.a1)).length + (l.filter (holds_alternative Alt.a2)).length
      + (l.filter (holds_alternative Alt.a3)).length = l.length := by
  induction l with
  | nil => rfl
  | cons x xs ih =>
    cases x <;> simp [List.filter_cons, holds_alternative] <;> omega

theorem filter_length_eq_filterMap {T1 T2 T3 : Type} (a : Alt) (l : List (variant T1 T2 T3)) :
    (l.filter (holds_alternative a)).length = (l.filterMap (payload a)).length := by
  induction l with
  | nil => rfl
  | cons x xs ih =>
    cases a <;> cases x <;>
      simp [List.filter_cons, List.filterMap_cons, holds_alternative, payload, ih]

/-! ## The modifier registry and composition -/

/-- C1 (composition order).  After `modify_only<T>(f)` the slot of `T` holds a
callable that first calls the old slot and then applies `f` to its result.
Hence, starting from a container whose `T` slot is the identity, after
`modify_only<T>(f)` and then `modify_only<T>(g)` the `range_over<T>` view
yields `g (f x)` for every stored `x` of type `T`, in order; dereferencing
an iterator at a position that stores `x` yields `g (f x)`; and a completed
whole-sequence iteration has `g (f x)` at that position. -/
theorem modify_only_composition_order {T1 T2 T3 : Type} (c : tri_list T1 T2 T3) (a : Alt)
    (f g : elem_type T1 T2 T3 a → elem_type T1 T2 T3 a) :
    (∀ x, invoke (get_function a (c.modify_only a f).modifiers) x =
        match invoke (get_function a c.modifiers) x with
        | .error e => .error e
        | .ok y => .ok (f y)) ∧
    (get_function a c.modifiers = some (identity (elem_type T1 T2 T3 a)) →
      (∀ x, invoke (get_function a ((c.modify_only a f).modify_only a g).modifiers) x
          = .ok (g (f x))) ∧
      ((c.modify_only a f).modify_only a g).read_range a
          = .ok ((c.list.filterMap (payload a)).map (fun x => g (f x))) ∧
      (∀ i x, c.list[i]? = some (inject a x) →
        ((c.modify_only a f).modify_only a g).read_at i = .ok (inject a (g (f x))) ∧
        ∀ vs, ((c.modify_only a f).modify_only a g).iterate = some (.ok vs) →
          vs[i]? = some (inject a (g (f x))))) := by
  have hnew : ∀ (d : tri_list T1 T2 T3) (h : elem_type T1 T2 T3 a → elem_type T1 T2 T3 a),
      get_function a (d.modify_only a h).modifiers
        = some (compose (lift h) (invoke (get_function a d.modifiers))) := by
    intro d h
    simp only [tri_list.modify_only, get_set_same]
  refine ⟨?_, ?_⟩
  · intro x
    rw [hnew]
    simp only [invoke_some, compose, lift]
    cases invoke (get_function a c.modifiers) x <;> rfl
  · intro hid
    have hslot : get_function a ((c.modify_only a f).modify_only a g).modifiers
        = some (lift (fun x => g (f x))) := by
      rw [hnew, hnew, hid]
      congr 1
    have hlist : ((c.modify_only a f).modify_only a g).list = c.list := rfl
    have hread : ∀ i x, c.list[i]? = some (inject a x) →
        ((c.modify_only a f).modify_only a g).read_at i = .ok (inject a (g (f x))) := by
      intro i x hx
      rw [read_at_eq, hlist, hx]
      simp only [visit_inject, hslot, invoke_some, lift]
    refine ⟨?_, ?_, ?_⟩
    · intro x
      rw [hslot]
      rfl
    · simp only [tri_list.read_range, traverse_eq, tri_list.range_over, hslot, hlist]
      exact collect_lift _ _
    · intro i x hx
      refine ⟨hread i x hx, ?_⟩
      intro vs hvs
      rw [iterate_eq] at hvs
      have hc := Option.some.inj hvs
      rw [hlist] at hc
      obtain ⟨w, hw, hF⟩ := collect_ok_getElem _ _ _ hc i _ hx
      have hr := hread i x hx
      rw [read_at_eq, hlist, hx] at hr
      simp only [] at hr
      rw [hr] at hF
      rw [hw]
      exact congrArg some (Except.ok.inj hF).symm

/-- Witness for C1 on `[1, true, 2]` with `f = (+ 1)` and `g = (* 2)`: the
integers read back as `[4, 6]`, which is `g (f x)` and not `f (g x)`. -/
theorem modify_only_composition_order_witness :
    (((tri_list.ctor [variant.v1 (1 : Int), variant.v2 true, (variant.v1 2 : variant Int Bool Nat)]).modify_only
        Alt.a1 (fun x => x + 1)).modify_only Alt.a1 (fun x => x * 2)).read_range Alt.a1
      = .ok [4, 6] :=
  ((modify_only_composition_order
      (tri_list.ctor [variant.v1 (1 : Int), variant.v2 true, (variant.v1 2 : variant Int Bool Nat)])
      Alt.a1 (fun x => x + 1) (fun x => x * 2)).2 rfl).2.1

/-- C6 (reset clears history).  Whatever the slot of `T` held before, after
`reset<T>()` it holds the identity: calling it returns its argument, the
`range_over<T>` view yields exactly the stored payloads of type `T`, and
dereferencing an iterator at a position that stores a value of type `T`
yields that stored value (also inside a completed whole-sequence iteration). -/
theorem reset_clears_history {T1 T2 T3 : Type} (c : tri_list T1 T2 T3) (a : Alt) :
    get_function a (c.reset a).modifiers = some (identity (elem_type T1 T2 T3 a)) ∧
    (∀ x, invoke (get_function a (c.reset a).modifiers) x = .ok x) ∧
    (c.reset a).read_range a = .ok (c.list.filterMap (payload a)) ∧
    (∀ i x, c.list[i]? = some (inject a x) →
      (c.reset a).read_at i = .ok (inject a x) ∧
      ∀ vs, (c.reset a).iterate = some (.ok vs) → vs[i]? = some (inject a x)) := by
  have hslot : get_function a (c.reset a).modifiers = some (identity (elem_type T1 T2 T3 a)) := by
    simp only [tri_list.reset, get_set_same]
  have hlist : (c.reset a).list = c.list := rfl
  have hread : ∀ i x, c.list[i]? = some (inject a x) →
      (c.reset a).read_at i = .ok (inject a x) := by
    intro i x hx
    rw [read_at_eq, hlist, hx]
    simp only [visit_inject, hslot, invoke_some, identity]
  refine ⟨hslot, ?_, ?_, ?_⟩
  · intro x
    rw [hslot]
    rfl
  · simp only [tri_list.read_range, traverse_eq, tri_list.range_over, hslot, hlist]
    have hc := collect_lift (fun (x : elem_type T1 T2 T3 a) => x)
      (List.filterMap (payload a) c.list)
    simp only [List.map_id_fun', id_eq] at hc
    exact hc
  · intro i x hx
    refine ⟨hread i x hx, ?_⟩
    intro vs hvs
    rw [iterate_eq] at hvs
    have hc := Option.some.inj hvs
    rw [hlist] at hc
    obtain ⟨w, hw, hF⟩ := collect_ok_getElem _ _ _ hc i _ hx
    have hr := hread i x hx
    rw [read_at_eq, hlist, hx] at hr
    simp only [] at hr
    rw [hr] at hF
    rw [hw]
    exact congrArg some (Except.ok.inj hF).symm

/-- Witness for C6: a default-constructed container with `5` pushed and the
integer modifier `(+ 1)` registered; after `reset` the integer at position
0 reads back as `5`. -/
theorem reset_clears_history_witness :
    (((((tri_list.default_ctor Int Bool Nat).push_back Alt.a1 (5 : Int)).modify_only Alt.a1
        (fun x => x + 1)).reset Alt.a1).read_at 0 = .ok (variant.v1 5)) :=
  ((reset_clears_history
      (((tri_list.default_ctor Int Bool Nat).push_back Alt.a1 (5 : Int)).modify_only Alt.a1
        (fun x => x + 1)) Alt.a1).2.2.2 0 (5 : Int) rfl).1

/-- C7 (type isolation).  For two different element types `T` and `U`,
`modify_only<T>(f)` and `reset<T>()` leave the slot of `U` as it was, so the
`range_over<U>` view and every dereference at a position that stores a
value of type `U` give the same result after the call as before it. -/
theorem modifier_calls_isolated {T1 T2 T3 : Type} (c : tri_list T1 T2 T3) (a b : Alt)
    (hab : b ≠ a) (f : elem_type T1 T2 T3 a → elem_type T1 T2 T3 a) :
    get_function b (c.modify_only a f).modifiers = get_function b c.modifiers ∧
    get_function b (c.reset a).modifiers = get_function b c.modifiers ∧
    (c.modify_only a f).read_range b = c.read_range b ∧
    (c.reset a).read_range b = c.read_range b ∧
    (∀ i x, c.list[i]? = some (inject b x) →
      (c.modify_only a f).read_at i = c.read_at i ∧ (c.reset a).read_at i = c.read_at i) := by
  have h1 : get_function b (c.modify_only a f).modifiers = get_function b c.modifiers := by
    simp only [tri_list.modify_only, get_set_other a b hab]
  have h2 : get_function b (c.reset a).modifiers = get_function b c.modifiers := by
    simp only [tri_list.reset, get_set_other a b hab]
  have l1 : (c.modify_only a f).list = c.list := rfl
  have l2 : (c.reset a).list = c.list := rfl
  refine ⟨h1, h2, ?_, ?_, ?_⟩
  · simp only [tri_list.read_range, tri_list.range_over, h1, l1]
  · simp only [tri_list.read_range, tri_list.range_over, h2, l2]
  · intro i x hx
    constructor
    · rw [read_at_eq, read_at_eq, l1, hx]
      simp only [visit_inject, h1]
    · rw [read_at_eq, read_at_eq, l2, hx]
      simp only [visit_inject, h2]

/-- Witness for C7: registering `(+ 1)` for the integers of `[1, true]`
leaves the view of the booleans as it was. -/
theorem modifier_calls_isolated_witness :
    ((tri_list.ctor [variant.v1 (1 : Int), (variant.v2 true : variant Int Bool Nat)]).modify_only
        Alt.a1 (fun x => x + 1)).read_range Alt.a2
      = (tri_list.ctor [variant.v1 (1 : Int),
          (variant.v2 true : variant Int Bool Nat)]).read_range Alt.a2 :=
  (modifier_calls_isolated
    (tri_list.ctor [variant.v1 (1 : Int), (variant.v2 true : variant Int Bool Nat)])
    Alt.a1 Alt.a2 (by decide) (fun x => x + 1)).2.2.1

/-- C11 (modifier management never touches storage).  The stored sequence
after `modify_only<T>(f)` and after `reset<T>()` is the stored sequence
before the call: same elements, same tags, same order. -/
theorem modifier_calls_keep_storage {T1 T2 T3 : Type} (c : tri_list T1 T2 T3) (a : Alt)
    (f : elem_type T1 T2 T3 a → elem_type T1 T2 T3 a) :
    (c.modify_only a f).list = c.list ∧
    (c.reset a).list = c.list ∧
    (c.modify_only a f).list.map variant.index = c.list.map variant.index ∧
    (c.reset a).list.map variant.index = c.list.map variant.index ∧
    (∀ i : Nat, (c.modify_only a f).list[i]? = c.list[i]? ∧ (c.reset a).list[i]? = c.list[i]?) := by
  have h1 : (c.modify_only a f).list = c.list := by
    simp only [tri_list.modify_only]
  have h2 : (c.reset a).list = c.list := by
    simp only [tri_list.reset]
  refine ⟨h1, h2, ?_, ?_, ?_⟩
  · rw [h1]
  · rw [h2]
  · intro i
    rw [h1, h2]
    exact ⟨rfl, rfl⟩

/-- C12 (pipeline in call order).  Starting from a container whose slot of
`T` is the identity, after `modify_only<T>(f1)`, ..., `modify_only<T>(fn)`
in that order (for any `n`, zero included) the slot maps `x` to
`fn (... (f2 (f1 x)) ...)`; the `range_over<T>` view yields that value for
every stored `x` of type `T`, in order, and so does a dereference at a
position that stores `x`. -/
theorem modify_only_pipeline {T1 T2 T3 : Type} (c : tri_list T1 T2 T3) (a : Alt)
    (fs : List (elem_type T1 T2 T3 a → elem_type T1 T2 T3 a))
    (hid : get_function a c.modifiers = some (identity (elem_type T1 T2 T3 a))) :
    (∀ x, invoke (get_function a (c.modify_all a fs).modifiers) x = .ok (pipeline fs x)) ∧
    (c.modify_all a fs).read_range a
      = .ok ((c.list.filterMap (payload a)).map (pipeline fs)) ∧
    (∀ i x, c.list[i]? = some (inject a x) →
      (c.modify_all a fs).read_at i = .ok (inject a (pipeline fs x))) ∧
    (∀ (f g : elem_type T1 T2 T3 a → elem_type T1 T2 T3 a) (x : elem_type T1 T2 T3 a),
      pipeline [f, g] x = g (f x)) := by
  have hslot : get_function a (c.modify_all a fs).modifiers
      = some (lift (fun x => pipeline fs x)) :=
    modify_all_slot a fs c (fun x => x) hid
  have hlist := modify_all_list a fs c
  refine ⟨?_, ?_, ?_, ?_⟩
  · intro x
    rw [hslot]
    rfl
  · simp only [tri_list.read_range, traverse_eq, tri_list.range_over, hslot, hlist]
    exact collect_lift _ _
  · intro i x hx
    rw [read_at_eq, hlist, hx]
    simp only [visit_inject, hslot, invoke_some, lift]
  · intro f g x
    rfl

/-- Witness for C12: on `[1, true, 2]` the calls `(+ 1)`, `(* 2)`, `(- 3)`
in that order make the integers read back as `[1, 3]`. -/
theorem modify_only_pipeline_witness :
    ((tri_list.ctor [variant.v1 (1 : Int), variant.v2 true,
        (variant.v1 2 : variant Int Bool Nat)]).modify_all Alt.a1
        [fun x => x + 1, fun x => x * 2, fun x => x - 3]).read_range Alt.a1
      = .ok [1, 3] :=
  (modify_only_pipeline
    (tri_list.ctor [variant.v1 (1 : Int), variant.v2 true, (variant.v1 2 : variant Int Bool Nat)])
    Alt.a1 [fun x => x + 1, fun x => x * 2, fun x => x - 3] rfl).2.1

/-! ## Reading: typed views and the whole-sequence iterator -/

/-- C2 (typed view).  Traversing the view made by `range_over<T>` yields, in
storage order, the payload of every element whose active type is `T` with
the slot of `T` captured when the view was made called on it; elements of
the other two types contribute nothing.  This holds for the storage as it is
when the view is made and for whatever the storage holds when the view is
traversed.  When the captured slot holds a total function `f`, the result is
the list of the `f x`. -/
theorem range_over_yields {T1 T2 T3 : Type} (c : tri_list T1 T2 T3) (a : Alt) :
    c.read_range a
        = collect (invoke (get_function a c.modifiers)) (c.list.filterMap (payload a)) ∧
    (∀ store, (c.range_over a).traverse store
        = collect (invoke (get_function a c.modifiers)) (store.filterMap (payload a))) ∧
    (∀ f, get_function a c.modifiers = some (lift f) →
      c.read_range a = .ok ((c.list.filterMap (payload a)).map f)) := by
  refine ⟨traverse_eq _ _, fun store => traverse_eq _ _, ?_⟩
  intro f hf
  simp only [tri_list.read_range, traverse_eq, tri_list.range_over, hf]
  exact collect_lift _ _

/-- Witness for C2: on `[1, true, 7, 2]` with the integer modifier `(+ 10)`
the integer view yields `[11, 12]`. -/
theorem range_over_yields_witness :
    ((tri_list.ctor [variant.v1 (1 : Int), variant.v2 true, variant.v3 (7 : Nat),
        variant.v1 2]).modify_only Alt.a1 (fun x => x + 10)).read_range Alt.a1
      = .ok [11, 12] :=
  (range_over_yields
    ((tri_list.ctor [variant.v1 (1 : Int), variant.v2 true, variant.v3 (7 : Nat),
        variant.v1 2]).modify_only Alt.a1 (fun x => x + 10)) Alt.a1).2.2
    (fun x => (x + 10 : Int)) rfl

/-- C3 (dereference).  Let position `i` of the storage hold an element of
type `T` with payload `x`.  Dereferencing `begin()` moved forward `i` times,
or `end()` moved backward `size - i` times, calls the captured slot of `T`
on `x`: an exception of that call propagates, and a returned `y` is yielded
as a variant of the same type `T` with payload `y`.  Any value a dereference
yields has the active type of the stored element. -/
theorem deref_applies_own_modifier {T1 T2 T3 : Type} (c : tri_list T1 T2 T3) (i : Nat)
    (a : Alt) (x : elem_type T1 T2 T3 a) (h : c.list[i]? = some (inject a x)) :
    ((c.begin.advance i).deref c.list =
        match invoke (get_function a c.modifiers) x with
        | .error e => .error e
        | .ok y => .ok (inject a y)) ∧
    ((c.end_.retreat (c.list.length - i)).deref c.list = (c.begin.advance i).deref c.list) ∧
    (∀ w, (c.begin.advance i).deref c.list = .ok w → w.index = a ∧ (inject a x).index = a) ∧
    (∀ f, get_function a c.modifiers = some (lift f) →
      (c.begin.advance i).deref c.list = .ok (inject a (f x))) := by
  have hlt : i < c.list.length := by
    rcases Nat.lt_or_ge i c.list.length with h1 | h1
    · exact h1
    · rw [List.getElem?_eq_none h1] at h
      exact absurd h (by simp)
  have hread : (c.begin.advance i).deref c.list =
      match invoke (get_function a c.modifiers) x with
      | .error e => .error e
      | .ok y => .ok (inject a y) := by
    have := read_at_eq c i
    rw [tri_list.read_at, h] at this
    rw [this]
    exact visit_inject _ _ _
  have hidx : (inject a x).index = a := by cases a <;> rfl
  refine ⟨hread, ?_, ?_, ?_⟩
  · rw [retreat_ptr, advance_ptr]
    simp only [tri_list.end_, tri_list.begin]
    have hcast : ((c.list.length - i : Nat) : Int) = (c.list.length : Int) - (i : Int) := by
      omega
    have hp : (c.list.length : Int) - ((c.list.length : Int) - (i : Int)) = 0 + (i : Int) := by
      ring
    rw [hcast, hp]
  · intro w hw
    refine ⟨?_, hidx⟩
    have := read_at_eq c i
    rw [tri_list.read_at, h, hw] at this
    rw [visit_index _ _ _ this.symm, hidx]
  · intro f hf
    rw [hread, hf]
    rfl

/-- Witness for C3: position 2 of `[true, 1, 2]` with the integer modifier
`(* 3)` dereferences to the integer `6`. -/
theorem deref_applies_own_modifier_witness :
    ((((tri_list.ctor [variant.v2 true, variant.v1 (1 : Int),
        (variant.v1 2 : variant Int Bool Nat)]).modify_only Alt.a1 (fun x => x * 3)).begin.advance 2).deref
        [variant.v2 true, variant.v1 (1 : Int), (variant.v1 2 : variant Int Bool Nat)]
      = .ok (variant.v1 6)) :=
  (deref_applies_own_modifier
    ((tri_list.ctor [variant.v2 true, variant.v1 (1 : Int),
        (variant.v1 2 : variant Int Bool Nat)]).modify_only Alt.a1 (fun x => x * 3))
    2 Alt.a1 (2 : Int) rfl).2.2.2 (fun x => (x * 3 : Int)) rfl

/-- C8 (snapshot semantics).  Let an iterator (from `begin()` or `end()`,
moved any number of steps) or a `range_over<T>` view be made in state `c`,
and let any sequence of `modify_only` and `reset` calls follow.  Reading
through that iterator or view in the later state gives exactly what it gives
in state `c`: the modifiers applied are the captured copies. -/
theorem snapshot_semantics {T1 T2 T3 : Type} (c : tri_list T1 T2 T3) (ops : List (op T1 T2 T3))
    (hops : ops.all op.is_modifier_call = true) :
    (∀ i, (c.begin.advance i).deref (c.run ops).list = (c.begin.advance i).deref c.list) ∧
    (∀ n, (c.end_.retreat n).deref (c.run ops).list = (c.end_.retreat n).deref c.list) ∧
    (∀ a, (c.range_over a).traverse (c.run ops).list = (c.range_over a).traverse c.list) ∧
    (∀ a, (c.range_over a).traverse (c.run ops).list = c.read_range a) := by
  have hlist := run_list_of_modifier_calls ops c hops
  refine ⟨?_, ?_, ?_, ?_⟩
  · intro i; rw [hlist]
  · intro n; rw [hlist]
  · intro a; rw [hlist]
  · intro a; rw [hlist]; rfl

/-- Witness for C8: an iterator made on `[1]` before `modify_only (+ 1)` and
`reset` calls still dereferences to what it did before them. -/
theorem snapshot_semantics_witness :
    (((tri_list.ctor [(variant.v1 (1 : Int) : variant Int Bool Nat)]).begin.advance 0).deref
        ((tri_list.ctor [(variant.v1 (1 : Int) : variant Int Bool Nat)]).run
          [op.modify_only Alt.a1 (fun x => x + 1), op.reset Alt.a2,
            op.modify_only Alt.a1 (fun x => x * 7)]).list
      = ((tri_list.ctor [(variant.v1 (1 : Int) : variant Int Bool Nat)]).begin.advance 0).deref
        (tri_list.ctor [(variant.v1 (1 : Int) : variant Int Bool Nat)]).list) :=
  (snapshot_semantics (tri_list.ctor [(variant.v1 (1 : Int) : variant Int Bool Nat)])
    [op.modify_only Alt.a1 (fun x => x + 1), op.reset Alt.a2,
      op.modify_only Alt.a1 (fun x => x * 7)] rfl).1 0

/-- C9 (order preservation).  For a container constructed from a list `L` and
then changed by any sequence of `push_back`, `modify_only` and `reset` calls,
the storage is `L` followed by the pushed elements in call order, and
iterating from `begin()` until `end()` is reached returns one value per
stored element, the `k`-th of the active type of the `k`-th stored element.
For a container in any state at all, an iteration that completes has these
two properties. -/
theorem iteration_preserves_order {T1 T2 T3 : Type} (L : List (variant T1 T2 T3))
    (ops : List (op T1 T2 T3)) :
    ((tri_list.ctor L).run ops).list = L ++ ops.filterMap op.pushed ∧
    (∃ vs, ((tri_list.ctor L).run ops).iterate = some (.ok vs) ∧
      vs.length = (L ++ ops.filterMap op.pushed).length ∧
      vs.map variant.index = (L ++ ops.filterMap op.pushed).map variant.index) ∧
    (∀ (c : tri_list T1 T2 T3) (vs : List (variant T1 T2 T3)), c.iterate = some (.ok vs) →
      vs.length = c.list.length ∧ vs.map variant.index = c.list.map variant.index) := by
  have hlist := run_list ops (tri_list.ctor L)
  have hl : (tri_list.ctor L).list = L := rfl
  rw [hl] at hlist
  refine ⟨hlist, ?_, ?_⟩
  · obtain ⟨f1, f2, f3, hm⟩ := run_total ops (tri_list.ctor L) (ctor_total L)
    refine ⟨_, iterate_total _ f1 f2 f3 hm, ?_, ?_⟩
    · rw [hlist, List.length_map]
    · rw [hlist, List.map_map]
      exact List.map_congr_left (fun v _ => modified_index f1 f2 f3 v)
  · intro c vs hvs
    rw [iterate_eq] at hvs
    have hc := Option.some.inj hvs
    exact ⟨collect_ok_length _ _ _ hc,
      collect_ok_map _ _ _ (fun v w hvw => visit_index c.modifiers v w hvw) _ _ hc⟩

/-- Witness for C9: the completed iteration over `[true, 1]` with the integer
modifier `(+ 1)` has the length of the storage. -/
theorem iteration_preserves_order_witness :
    [(variant.v2 true : variant Int Bool Nat), variant.v1 2].length
      = ((tri_list.ctor [(variant.v2 true : variant Int Bool Nat), variant.v1 1]).modify_only
          Alt.a1 (fun x => x + 1)).list.length :=
  ((iteration_preserves_order ([] : List (variant Int Bool Nat)) []).2.2
    ((tri_list.ctor [(variant.v2 true : variant Int Bool Nat), variant.v1 1]).modify_only
      Alt.a1 (fun x => x + 1))
    [(variant.v2 true : variant Int Bool Nat), variant.v1 2] (by rfl)).1

/-- C13 (iterator equality).  Two iterators compare equal exactly when they
hold the same storage position, whatever modifiers each has captured, and
`operator!=` is the negation of `operator==`.  In particular an iterator
taken from `begin()` or `end()` and moved some steps compares equal to the
iterator taken and moved the same way after any sequence of `modify_only`
and `reset` calls. -/
theorem iterator_equality {T1 T2 T3 : Type} (it1 it2 : iterator T1 T2 T3) :
    (it1.eq it2 = true ↔ it1.ptr = it2.ptr) ∧
    (it1.ne it2 = !(it1.eq it2)) ∧
    (∀ m : registry T1 T2 T3, it1.eq ⟨it1.ptr, m⟩ = true ∧ it1.ne ⟨it1.ptr, m⟩ = false) ∧
    (∀ m1 m2 : registry T1 T2 T3,
      iterator.eq ⟨it1.ptr, m1⟩ ⟨it2.ptr, m2⟩ = it1.eq it2) ∧
    (∀ (c : tri_list T1 T2 T3) (ops : List (op T1 T2 T3)),
      ops.all op.is_modifier_call = true →
      ∀ n, (c.begin.advance n).eq ((c.run ops).begin.advance n) = true ∧
        (c.end_.retreat n).eq ((c.run ops).end_.retreat n) = true) := by
  refine ⟨?_, ?_, ?_, ?_, ?_⟩
  · simp [iterator.eq]
  · simp [iterator.eq, iterator.ne]
  · intro m
    simp [iterator.eq, iterator.ne]
  · intro m1 m2
    rfl
  · intro c ops hops n
    have hlist := run_list_of_modifier_calls ops c hops
    simp only [advance_ptr, retreat_ptr, iterator.eq, tri_list.begin, tri_list.end_, hlist,
      decide_True, and_self]

/-- Witness for C13: `begin()` of `[1, true]` taken before `modify_only (+ 1)`
equals `begin()` taken after it, both moved one step. -/
theorem iterator_equality_witness :
    (((tri_list.ctor [variant.v1 (1 : Int), (variant.v2 true : variant Int Bool Nat)]).begin.advance 1).eq
      (((tri_list.ctor [variant.v1 (1 : Int), (variant.v2 true : variant Int Bool Nat)]).run
        [op.modify_only Alt.a1 (fun x => x + 1)]).begin.advance 1) = true) :=
  ((iterator_equality
      (tri_list.ctor [variant.v1 (1 : Int), (variant.v2 true : variant Int Bool Nat)]).begin
      (tri_list.ctor [variant.v1 (1 : Int), (variant.v2 true : variant Int Bool Nat)]).end_).2.2.2.2
    (tri_list.ctor [variant.v1 (1 : Int), (variant.v2 true : variant Int Bool Nat)])
    [op.modify_only Alt.a1 (fun x => x + 1)] rfl 1).1

/-- C14 (bidirectional symmetry).  Stepping an iterator forward `n` times and
then backward `n` times, each with the prefix or the postfix operator, gives
back the iterator it started from: the same position (so it compares equal),
the same captured modifiers, and the same result of a dereference in any
storage.  The copy a postfix operator returns is the iterator before the step. -/
theorem bidirectional_symmetry {T1 T2 T3 : Type} (it : iterator T1 T2 T3) (n : Nat)
    (store : List (variant T1 T2 T3)) :
    (it.advance n).retreat n = it ∧
    (it.advance_post n).retreat_post n = it ∧
    (it.advance n).retreat_post n = it ∧
    (it.advance_post n).retreat n = it ∧
    ((it.advance n).retreat n).eq it = true ∧
    ((it.advance n).retreat n).ptr = it.ptr ∧
    ((it.advance n).retreat n).modifiers = it.modifiers ∧
    ((it.advance n).retreat n).deref store = it.deref store ∧
    ((it.advance_post n).retreat_post n).deref store = it.deref store ∧
    it.post_increment.1 = it ∧ it.post_decrement.1 = it ∧
    it.post_increment.2 = it.pre_increment ∧ it.post_decrement.2 = it.pre_decrement := by
  have h := advance_retreat it n
  refine ⟨h, ?_, ?_, ?_, ?_, ?_, ?_, ?_, ?_, rfl, rfl, rfl, rfl⟩
  · rw [advance_post_eq, retreat_post_eq, h]
  · rw [retreat_post_eq, h]
  · rw [advance_post_eq, h]
  · rw [h]; simp [iterator.eq]
  · rw [h]
  · rw [h]
  · rw [h]
  · rw [advance_post_eq, retreat_post_eq, h]

/-! ## Construction -/

/-- C4 (default construction), evaluated on the code.  The defaulted
constructor leaves all three slots empty, not holding the identity: after
`push_back(1)` on a default-constructed container over (Int, Bool, Nat),
dereferencing `begin()`, iterating from `begin()` to `end()` and traversing
the integer view all end in `std::bad_function_call` instead of yielding `1`.
The same holds for one pushed value of any of the three types. -/
theorem default_ctor_slots_empty :
    (tri_list.default_ctor Int Bool Nat).list = [] ∧
    (tri_list.default_ctor Int Bool Nat).modifiers = (none, none, none) ∧
    ((tri_list.default_ctor Int Bool Nat).push_back Alt.a1 (1 : Int)).read_at 0
      = .error .bad_function_call ∧
    ((tri_list.default_ctor Int Bool Nat).push_back Alt.a1 (1 : Int)).iterate
      = some (.error .bad_function_call) ∧
    ((tri_list.default_ctor Int Bool Nat).push_back Alt.a1 (1 : Int)).read_range Alt.a1
      = .error .bad_function_call ∧
    (∀ (T1 T2 T3 : Type) (a : Alt) (x : elem_type T1 T2 T3 a),
      ((tri_list.default_ctor T1 T2 T3).push_back a x).iterate
        = some (.error .bad_function_call) ∧
      ((tri_list.default_ctor T1 T2 T3).push_back a x).read_range a
        = .error .bad_function_call) := by
  refine ⟨rfl, rfl, rfl, rfl, rfl, ?_⟩
  intro T1 T2 T3 a x
  cases a <;> exact ⟨rfl, rfl⟩

/-- C5 (construction from a literal list).  The container constructed from a
list `L` stores exactly `L`, holds the identity in each of the three slots,
iterates from `begin()` to `end()` as exactly `L`, and its `range_over<T>`
view yields exactly the payloads of the `T`-typed elements of `L`, in order. -/
theorem ctor_from_list {T1 T2 T3 : Type} (L : List (variant T1 T2 T3)) :
    (tri_list.ctor L).list = L ∧
    (tri_list.ctor L).modifiers = (some (identity T1), some (identity T2), some (identity T3)) ∧
    (∀ (a : Alt) (x : elem_type T1 T2 T3 a),
      invoke (get_function a (tri_list.ctor L).modifiers) x = .ok x) ∧
    (tri_list.ctor L).iterate = some (.ok L) ∧
    (∀ a, (tri_list.ctor L).read_range a = .ok (L.filterMap (payload a))) := by
  refine ⟨rfl, rfl, ?_, ?_, ?_⟩
  · intro a x
    cases a <;> rfl
  · have h := iterate_total (tri_list.ctor L) (fun x => x) (fun x => x) (fun x => x) rfl
    rw [h]
    have hm : (tri_list.ctor L).list.map (modified (fun x => x) (fun x => x) (fun x => x)) = L := by
      show L.map _ = L
      conv_rhs => rw [← List.map_id L]
      exact List.map_congr_left (fun v _ => modified_id v)
    rw [hm]
  · intro a
    have hslot : get_function a (tri_list.ctor L).modifiers = some (lift (fun x => x)) := by
      cases a <;> rfl
    simp only [tri_list.read_range, traverse_eq, tri_list.range_over, hslot]
    have hc := collect_lift (fun (x : elem_type T1 T2 T3 a) => x) (List.filterMap (payload a) L)
    simp only [List.map_id_fun', id_eq] at hc
    exact hc

/-- C15 (no runtime errors), evaluated on the code.  On a container made by
the defaulted constructor, after `push_back(true)`, `modify_only<bool>(not)`
and `push_back(3)`, dereferencing the iterator at the in-bounds positions 0
and 1, iterating from `begin()` to `end()`, and traversing the views of the
booleans and of the integers all end in `std::bad_function_call`. -/
theorem default_ctor_reads_throw :
    ((((tri_list.default_ctor Int Bool Nat).push_back Alt.a2 true).modify_only Alt.a2
        (fun b => !b)).push_back Alt.a1 (3 : Int)).read_at 0 = .error .bad_function_call ∧
    ((((tri_list.default_ctor Int Bool Nat).push_back Alt.a2 true).modify_only Alt.a2
        (fun b => !b)).push_back Alt.a1 (3 : Int)).read_at 1 = .error .bad_function_call ∧
    ((((tri_list.default_ctor Int Bool Nat).push_back Alt.a2 true).modify_only Alt.a2
        (fun b => !b)).push_back Alt.a1 (3 : Int)).iterate
      = some (.error .bad_function_call) ∧
    ((((tri_list.default_ctor Int Bool Nat).push_back Alt.a2 true).modify_only Alt.a2
        (fun b => !b)).push_back Alt.a1 (3 : Int)).read_range Alt.a2
      = .error .bad_function_call ∧
    ((((tri_list.default_ctor Int Bool Nat).push_back Alt.a2 true).modify_only Alt.a2
        (fun b => !b)).push_back Alt.a1 (3 : Int)).read_range Alt.a1
      = .error .bad_function_call := by
  refine ⟨rfl, rfl, rfl, rfl, rfl⟩

/-- C16 (worked example).  For the container over (int, string, bool)
constructed from `[1, "a", true, 2]`, after `modify_only<int>` with
`x ↦ x + 1` the view of the integers yields `[2, 3]` and iterating from
`begin()` to `end()` yields `[2, "a", true, 3]`. -/
theorem worked_example :
    ((tri_list.ctor [variant.v1 (1 : Int), variant.v2 "a", variant.v3 true,
        variant.v1 2]).modify_only Alt.a1 (fun x => x + 1)).read_range Alt.a1
      = .ok [2, 3] ∧
    ((tri_list.ctor [variant.v1 (1 : Int), variant.v2 "a", variant.v3 true,
        variant.v1 2]).modify_only Alt.a1 (fun x => x + 1)).iterate
      = some (.ok [variant.v1 2, variant.v2 "a", variant.v3 true, variant.v1 3]) := by
  refine ⟨rfl, rfl⟩

/-- C17 (callable-registry invariant).  That each of the three slots holds a
target is established by the constructor from a literal list and preserved
by every call (`push_back`, `modify_only<T>`, `reset<T>`).  On a container
built by that constructor and changed by any sequence of calls, every read
succeeds: iterating from `begin()` to `end()`, traversing each typed view,
and dereferencing at each in-bounds position return a value. -/
theorem callable_registry_invariant {T1 T2 T3 : Type} (L : List (variant T1 T2 T3))
    (ops : List (op T1 T2 T3)) :
    holds_callables (tri_list.ctor L).modifiers ∧
    (∀ (c : tri_list T1 T2 T3) (o : op T1 T2 T3),
      holds_callables c.modifiers → holds_callables (c.step o).modifiers) ∧
    holds_callables ((tri_list.ctor L).run ops).modifiers ∧
    (∃ vs, ((tri_list.ctor L).run ops).iterate = some (.ok vs)) ∧
    (∀ a, ∃ ys, ((tri_list.ctor L).run ops).read_range a = .ok ys) ∧
    (∀ i, i < ((tri_list.ctor L).run ops).list.length →
      ∃ w, ((tri_list.ctor L).run ops).read_at i = .ok w) := by
  have h0 : holds_callables (tri_list.ctor L).modifiers := ⟨rfl, rfl, rfl⟩
  obtain ⟨f1, f2, f3, hm⟩ := run_total ops (tri_list.ctor L) (ctor_total L)
  refine ⟨h0, step_holds_callables, run_holds_callables ops _ h0, ?_, ?_, ?_⟩
  · exact ⟨_, iterate_total _ f1 f2 f3 hm⟩
  · intro a
    have hslot : slot_total (get_function a ((tri_list.ctor L).run ops).modifiers) := by
      rw [hm]
      cases a
      · exact ⟨f1, rfl⟩
      · exact ⟨f2, rfl⟩
      · exact ⟨f3, rfl⟩
    obtain ⟨f, hf⟩ := hslot
    refine ⟨(((tri_list.ctor L).run ops).list.filterMap (payload a)).map f, ?_⟩
    simp only [tri_list.read_range, traverse_eq, tri_list.range_over, hf]
    exact collect_lift _ _
  · intro i hi
    rw [read_at_eq, List.getElem?_eq_getElem hi, hm]
    exact ⟨_, visit_total f1 f2 f3 _⟩

/-- Witness for C17: `reset` on the container constructed from `[1]` keeps
all three slots non-empty. -/
theorem callable_registry_invariant_witness :
    holds_callables
      ((tri_list.ctor [(variant.v1 (1 : Int) : variant Int Bool Nat)]).step
        (op.reset Alt.a1)).modifiers :=
  (callable_registry_invariant ([] : List (variant Int Bool Nat)) []).2.1
    (tri_list.ctor [(variant.v1 (1 : Int) : variant Int Bool Nat)]) (op.reset Alt.a1)
    ⟨rfl, rfl, rfl⟩

/-- C18 (reads on a default-constructed container).  Take a container made by
the defaulted constructor and changed by any sequence of `push_back`,
`modify_only` and `reset` calls, and a position that stores a value `x` of
type `T`.  Dereferencing at that position, and traversing the view of `T`,
end in `std::bad_function_call` exactly when no `reset<T>()` is among the
calls; with a `reset<T>()` among them both reads return values.  Without a
`reset<T>()`, whatever `modify_only<T>` calls were made, every call of the
slot of `T` throws. -/
theorem default_ctor_read_fails_iff {T1 T2 T3 : Type} (ops : List (op T1 T2 T3)) (a : Alt)
    (i : Nat) (x : elem_type T1 T2 T3 a)
    (h : ((tri_list.default_ctor T1 T2 T3).run ops).list[i]? = some (inject a x)) :
    (((tri_list.default_ctor T1 T2 T3).run ops).read_at i = .error .bad_function_call
      ↔ ops.any (op.is_reset a) = false) ∧
    (((tri_list.default_ctor T1 T2 T3).run ops).read_range a = .error .bad_function_call
      ↔ ops.any (op.is_reset a) = false) ∧
    (ops.any (op.is_reset a) = true →
      ∃ f, ((tri_list.default_ctor T1 T2 T3).run ops).read_at i = .ok (inject a (f x)) ∧
        ((tri_list.default_ctor T1 T2 T3).run ops).read_range a
          = .ok ((((tri_list.default_ctor T1 T2 T3).run ops).list.filterMap (payload a)).map f)) ∧
    (ops.any (op.is_reset a) = false →
      ∀ y, invoke (get_function a ((tri_list.default_ctor T1 T2 T3).run ops).modifiers) y
        = .error .bad_function_call) := by
  have hyes : ops.any (op.is_reset a) = true →
      ∃ f, ((tri_list.default_ctor T1 T2 T3).run ops).read_at i = .ok (inject a (f x)) ∧
        ((tri_list.default_ctor T1 T2 T3).run ops).read_range a
          = .ok ((((tri_list.default_ctor T1 T2 T3).run ops).list.filterMap (payload a)).map f) := by
    intro hany
    obtain ⟨f, hf⟩ := run_slot_reset a ops (tri_list.default_ctor T1 T2 T3) hany
    refine ⟨f, ?_, ?_⟩
    · rw [read_at_eq, h]
      simp only [visit_inject, hf, invoke_some, lift]
    · simp only [tri_list.read_range, traverse_eq, tri_list.range_over, hf]
      exact collect_lift _ _
  have hthrow : ops.any (op.is_reset a) = false →
      slot_throws (get_function a ((tri_list.default_ctor T1 T2 T3).run ops).modifiers) :=
    fun hany => run_slot_throws a ops _ (default_ctor_slot_throws T1 T2 T3 a) hany
  have hno1 : ops.any (op.is_reset a) = false →
      ((tri_list.default_ctor T1 T2 T3).run ops).read_at i = .error .bad_function_call := by
    intro hany
    rw [read_at_eq, h]
    simp only [visit_inject, hthrow hany x]
  have hno2 : ops.any (op.is_reset a) = false →
      ((tri_list.default_ctor T1 T2 T3).run ops).read_range a = .error .bad_function_call := by
    intro hany
    simp only [tri_list.read_range, traverse_eq, tri_list.range_over]
    exact collect_throws _ _ (hthrow hany) _ (filterMap_payload_ne_nil a _ i x h)
  refine ⟨⟨?_, hno1⟩, ⟨?_, hno2⟩, hyes, hthrow⟩
  · intro herr
    cases hany : ops.any (op.is_reset a) with
    | false => rfl
    | true =>
      obtain ⟨f, h1, _⟩ := hyes hany
      rw [h1] at herr
      exact absurd herr (by simp)
  · intro herr
    cases hany : ops.any (op.is_reset a) with
    | false => rfl
    | true =>
      obtain ⟨f, _, h2⟩ := hyes hany
      rw [h2] at herr
      exact absurd herr (by simp)

/-- Witness for C18: default construction, `push_back(5)`, then
`modify_only<int>` with `(+ 1)` and no `reset`; the read at position 0 throws. -/
theorem default_ctor_read_fails_iff_witness :
    ((tri_list.default_ctor Int Bool Nat).run
        [op.push_back Alt.a1 (5 : Int), op.modify_only Alt.a1 (fun x => x + 1)]).read_at 0
      = .error .bad_function_call :=
  (default_ctor_read_fails_iff
    [op.push_back Alt.a1 (5 : Int), (op.modify_only Alt.a1 (fun x => x + 1) : op Int Bool Nat)]
    Alt.a1 0 (5 : Int) rfl).1.mpr rfl

/-- C19 (view and iterator agree).  In a state where iterating from `begin()`
to `end()` completes with the values `vs`, traversing the view of `T`
yields exactly the payloads of those values of `vs` whose active type is
`T`, in order. -/
theorem view_iterator_agreement {T1 T2 T3 : Type} (c : tri_list T1 T2 T3) (a : Alt)
    (vs : List (variant T1 T2 T3)) (h : c.iterate = some (.ok vs)) :
    c.read_range a = .ok (vs.filterMap (payload a)) := by
  rw [iterate_eq] at h
  have hc := Option.some.inj h
  simp only [tri_list.read_range, traverse_eq, tri_list.range_over]
  exact collect_visit_filterMap c.modifiers a c.list vs hc

/-- Witness for C19: on `[1, true, 2]` with the integer modifier `(+ 1)` the
iteration yields `[2, true, 3]` and the view of the integers yields `[2, 3]`. -/
theorem view_iterator_agreement_witness :
    ((tri_list.ctor [variant.v1 (1 : Int), variant.v2 true,
        (variant.v1 2 : variant Int Bool Nat)]).modify_only Alt.a1 (fun x => x + 1)).read_range
        Alt.a1
      = .ok [2, 3] :=
  view_iterator_agreement
    ((tri_list.ctor [variant.v1 (1 : Int), variant.v2 true,
        (variant.v1 2 : variant Int Bool Nat)]).modify_only Alt.a1 (fun x => x + 1))
    Alt.a1 [variant.v1 2, variant.v2 true, variant.v1 3] (by rfl)

/-- C20 (typed views partition the sequence).  In every container state the
numbers of positions of the three typed views sum to the number of stored
elements; every stored element passes the filter of the view of its own
active type and of no other; and a traversal of a view that completes
yields as many values as the view has positions, so three completed
traversals yield as many values in total as there are stored elements. -/
theorem views_partition {T1 T2 T3 : Type} (c : tri_list T1 T2 T3) :
    ((c.range_over Alt.a1).length c.list + (c.range_over Alt.a2).length c.list
      + (c.range_over Alt.a3).length c.list = c.list.length) ∧
    (∀ (x : variant T1 T2 T3) (a : Alt), holds_alternative a x = true ↔ a = x.index) ∧
    (∀ (a : Alt) ys, c.read_range a = .ok ys → ys.length = (c.range_over a).length c.list) ∧
    (∀ l1 l2 l3, c.read_range Alt.a1 = .ok l1 → c.read_range Alt.a2 = .ok l2 →
      c.read_range Alt.a3 = .ok l3 → l1.length + l2.length + l3.length = c.list.length) := by
  have hsum := filter_lengths_sum c.list
  have hlen : ∀ (a : Alt) ys, c.read_range a = .ok ys →
      ys.length = (c.range_over a).length c.list := by
    intro a ys hys
    simp only [tri_list.read_range, traverse_eq] at hys
    rw [collect_ok_length _ _ _ hys, range_view.length, filter_length_eq_filterMap]
  refine ⟨hsum, ?_, hlen, ?_⟩
  · intro x a
    cases a <;> cases x <;> simp [holds_alternative, variant.index]
  · intro l1 l2 l3 h1 h2 h3
    rw [hlen _ _ h1, hlen _ _ h2, hlen _ _ h3]
    exact hsum

/-- Witness for C20: the three views of `[1, true, 7, 2]` yield 2, 1 and 1
values, 4 in total. -/
theorem views_partition_witness :
    [(1 : Int), 2].length + [true].length + [(7 : Nat)].length
      = (tri_list.ctor [variant.v1 (1 : Int), variant.v2 true, variant.v3 (7 : Nat),
          variant.v1 2]).list.length :=
  (views_partition (tri_list.ctor [variant.v1 (1 : Int), variant.v2 true, variant.v3 (7 : Nat),
      variant.v1 2])).2.2.2 [1, 2] [true] [7] (by rfl) (by rfl) (by rfl)

/-! ## Insertion -/

/-- C10 (push_back only appends).  After `push_back(v)` with `v` of type `T`
the storage is the old storage followed by the single element `v` tagged
`T`; the old elements are the first elements of the new storage, unchanged
and in the same order; and the three modifiers are unchanged. -/
theorem push_back_appends {T1 T2 T3 : Type} (c : tri_list T1 T2 T3) (a : Alt)
    (v : elem_type T1 T2 T3 a) :
    (c.push_back a v).list = c.list ++ [inject a v] ∧
    (inject a v : variant T1 T2 T3).index = a ∧
    payload a (inject a v : variant T1 T2 T3) = some v ∧
    (c.push_back a v).list.length = c.list.length + 1 ∧
    (c.push_back a v).list.take c.list.length = c.list ∧
    (c.push_back a v).list[c.list.length]? = some (inject a v) ∧
    (c.push_back a v).modifiers = c.modifiers := by
  refine ⟨rfl, inject_index a v, payload_inject a v, ?_, ?_, ?_, rfl⟩
  · simp [tri_list.push_back]
  · simp [tri_list.push_back]
  · simp [tri_list.push_back]

end TriList
